import Mathlib

/-!
Verification of the EE-RI-Bot datasheet parser and BOM cost estimator.

Shallow embedding of `src/utils/cost_estimator.py` (class `CostEstimator`)
and `src/tools/datasheet_parser.py` (class `DatasheetParser`), together with
proofs about the embedded operations.

Modelling conventions:
* Python `str` is modelled as `List Char` (a list of Unicode code points);
  `len` is `List.length`.
* Python numbers (`float` prices, discounts) are modelled as exact rationals
  `ℚ`; `round(x, n)` is modelled as exact decimal rounding half-to-even
  (banker's rounding), which is what Python's `round` computes on the real
  value of its argument.  Binary floating-point representation error is
  outside the embedding.
* Python `int` is modelled as `ℤ`.
* Dictionaries with a fixed key set become structures; optional dictionary
  entries (`dict.get` with a default) become `Option` fields.
* Character classes `\d` and `\s` and the `str.lower`/`IGNORECASE` case
  insensitivity are modelled over their ASCII ranges (as in Lean core's
  `Char.isDigit` / `Char.toLower`); all vocabulary keywords, pattern
  letters and test inputs are ASCII.
-/

/-! Section: Python-style rounding on exact rationals -/

/-- Round a rational to the nearest integer, ties to even
(the rounding mode of Python's `round`). -/
def roundHalfEven (q : ℚ) : ℤ :=
  let f := ⌊q⌋
  if q - (f : ℚ) < 1/2 then f
  else if 1/2 < q - (f : ℚ) then f + 1
  else if f % 2 = 0 then f else f + 1

/-- Python `round(x, ndigits)` on the exact value of `x`:
scale by `10^ndigits`, round half-to-even, scale back. -/
def pyRound (q : ℚ) (ndigits : ℕ) : ℚ :=
  (roundHalfEven (q * (10 : ℚ) ^ ndigits) : ℚ) / (10 : ℚ) ^ ndigits

/-! Section: `CostEstimator` (src/utils/cost_estimator.py) -/

/-- One entry of the `components` input list of `estimate_bom_cost`.
Python components are dicts read with `component.get(key, default)`
(or `get(key)` returning `None`), so every field is optional. -/
structure Component where
  part_number : Option String
  unit_price : Option ℚ
  quantity : Option ℚ
deriving DecidableEq, Repr

/-- One entry of the `components` list of the estimation result
(the dict appended per loop iteration in `estimate_bom_cost`). -/
structure LineEstimate where
  part_number : Option String
  quantity : ℚ
  unit_price : ℚ
  discounted_price : ℚ
  line_cost : ℚ
deriving DecidableEq, Repr

/-- The `estimation` result dict of `estimate_bom_cost`. -/
structure BomEstimation where
  volume : ℤ
  region : String
  components : List LineEstimate
  total_cost : ℚ
  cost_per_unit : ℚ
  currency : String
deriving DecidableEq, Repr

/-- Dict `self.volume_discounts`, already listed in the descending key order in
which `_get_volume_discount` traverses it
(`sorted(self.volume_discounts.keys(), reverse=True)`). -/
def volume_discounts_desc : List (ℤ × ℚ) :=
  [(100000, 0.40), (10000, 0.55), (1000, 0.75), (100, 1.0)]

/-- The loop of `_get_volume_discount`: first threshold `≤ volume` wins;
falls through to `1.0`. -/
def lookupDiscount : List (ℤ × ℚ) → ℤ → ℚ
  | [], _ => 1.0
  | (threshold, d) :: rest, volume =>
    if volume ≥ threshold then d else lookupDiscount rest volume

/-- Method `CostEstimator._get_volume_discount`. -/
def get_volume_discount (volume : ℤ) : ℚ :=
  lookupDiscount volume_discounts_desc volume

/-- The dict appended to `estimation["components"]` for one component in the
loop body of `estimate_bom_cost`. -/
def bomLine (discount_factor : ℚ) (component : Component) : LineEstimate :=
  let unit_price := component.unit_price.getD 0.0
  let quantity := component.quantity.getD 1
  let discounted_price := unit_price * discount_factor
  let line_cost := discounted_price * quantity
  { part_number := component.part_number
    quantity := quantity
    unit_price := pyRound unit_price 4
    discounted_price := pyRound discounted_price 4
    line_cost := pyRound line_cost 4 }

/-- The unrounded `line_cost` added to `estimation["total_cost"]` for one
component in the loop body of `estimate_bom_cost`. -/
def rawLineCost (discount_factor : ℚ) (component : Component) : ℚ :=
  (component.unit_price.getD 0.0) * discount_factor * (component.quantity.getD 1)

/-- Method `CostEstimator.estimate_bom_cost`.  The loop grows the `components` list
and accumulates the unrounded `line_cost` into `total_cost`; afterwards
`total_cost` is rounded to 2 decimals and `cost_per_unit` is set to
`round(estimation["total_cost"], 2)`, i.e. the already-rounded total rounded
again. -/
def estimate_bom_cost (components : List Component) (volume : ℤ) (region : String) :
    BomEstimation :=
  let discount_factor := get_volume_discount volume
  let loop := components.foldl
    (fun (acc : List LineEstimate × ℚ) component =>
      (acc.1 ++ [bomLine discount_factor component],
       acc.2 + rawLineCost discount_factor component))
    ([], 0.0)
  { volume := volume
    region := region
    components := loop.1
    total_cost := pyRound loop.2 2
    cost_per_unit := pyRound (pyRound loop.2 2) 2
    currency := if region = "EU" then "EUR" else "USD" }

/-- One entry of the `comparisons` list in `compare_alternatives`. -/
structure Comparison where
  alternative : String
  total_cost : ℚ
  components : List (Option String)
deriving DecidableEq, Repr

/-- The result dict of `compare_alternatives`. -/
structure ComparisonResult where
  volume : ℤ
  alternatives : List Comparison
  best_option : Option Comparison
  savings : ℚ
deriving DecidableEq, Repr

/-- The dict appended to `comparisons` for alternative number `idx`
(0-based, as produced by `enumerate`) in `compare_alternatives`;
`estimate_bom_cost` is called with its default region `"EU"`. -/
def mkComparison (volume : ℤ) (idx : ℕ) (alternative : List Component) : Comparison :=
  { alternative := "Option " ++ toString (idx + 1)
    total_cost := (estimate_bom_cost alternative volume "EU").total_cost
    components := alternative.map (·.part_number) }

/-- Placeholder `Comparison` used only as the (never relevant) default of
`headD`/`getLastD` on lists known to be non-empty. -/
def noComparison : Comparison :=
  { alternative := "", total_cost := 0, components := [] }

/-- Method `CostEstimator.compare_alternatives`.  Python's `list.sort` (stable
mergesort, key `total_cost`) is modelled by `List.mergeSort`;
`comparisons[0]` / `comparisons[-1]` in the `len > 1` branch become
`headD` / `getLastD` on the non-empty sorted list. -/
def compare_alternatives (component_alternatives : List (List Component)) (volume : ℤ) :
    ComparisonResult :=
  let comparisons := component_alternatives.enum.map
    (fun p => mkComparison volume p.1 p.2)
  let sorted := comparisons.mergeSort
    (fun a b => decide (a.total_cost ≤ b.total_cost))
  { volume := volume
    alternatives := sorted
    best_option := sorted.head?
    savings :=
      if 1 < sorted.length then
        pyRound ((sorted.getLastD noComparison).total_cost -
                 (sorted.headD noComparison).total_cost) 2
      else 0 }

/-! Section: `DatasheetParser` (src/tools/datasheet_parser.py)

Only the pure text operations are embedded: `_extract_specifications`,
`_extract_features` and `_extract_applications`.  `parse_pdf_datasheet` and
`extract_electrical_table` perform network/PDF I/O and are not modelled. -/

/-- Class `\d` of the Python patterns (ASCII range, see module conventions). -/
def isDigitChar (c : Char) : Bool := c.isDigit

/-- Class `\s` of the Python patterns: ASCII whitespace
(space, tab, newline, carriage return, vertical tab, form feed). -/
def pyIsSpace (c : Char) : Bool :=
  c = ' ' || c = '\t' || c = '\n' || c = '\r' || c = '\x0b' || c = '\x0c'

/-- Case-insensitive match of one pattern letter `a` (given in lowercase)
against a subject character, per `re.IGNORECASE` on ASCII letters. -/
def ciIs (a : Char) (c : Char) : Bool := c.toLower = a

/-- Consume one subject character matching pattern letter `a`
case-insensitively. -/
def takeCI (a : Char) : List Char → Option (List Char)
  | c :: rest => if ciIs a c then some rest else none
  | [] => none

/-- Consume the pattern word `w` (given in lowercase) case-insensitively. -/
def matchWordCI : List Char → List Char → Option (List Char)
  | [], s => some s
  | a :: as, c :: s => if ciIs a c then matchWordCI as s else none
  | _ :: _, [] => none

/-- An optional trailing pattern group `(?:w s?)?` (e.g. `(?:olts?)?`):
if the word `w` is present (case-insensitively) consume it together with an
optional `s`; otherwise consume nothing.  Since the group ends the pattern,
greedy matching agrees with Python's backtracking semantics. -/
def optWordS (w : List Char) (s : List Char) : List Char :=
  match matchWordCI w s with
  | some r =>
    match takeCI 's' r with
    | some r2 => r2
    | none => r
  | none => s

/-- Group `(\d+\.?\d*)` — greedy digits, optional dot, greedy digits; returns the
captured characters and the unconsumed rest.  (If the dot is present, taking
it can never cause a later failure that skipping it would avoid, since the
pattern continues with `\s*` and a non-digit unit letter; so greedy matching
agrees with Python's backtracking semantics.) -/
def parseDigits (s : List Char) : Option (List Char × List Char) :=
  let ds := s.takeWhile isDigitChar
  let s1 := s.dropWhile isDigitChar
  if ds.isEmpty then none
  else
    match s1 with
    | '.' :: s2 => some (ds ++ '.' :: s2.takeWhile isDigitChar, s2.dropWhile isDigitChar)
    | _ => some (ds, s1)

/-- The capture group of a specification pattern: `(-?\d+\.?\d*)` when
`neg` is true (temperature), `(\d+\.?\d*)` otherwise. -/
def parseNumber (neg : Bool) (s : List Char) : Option (List Char × List Char) :=
  match neg, s with
  | true, '-' :: s1 => (parseDigits s1).map (fun p => ('-' :: p.1, p.2))
  | _, _ => parseDigits s

/-- Pattern tail `\s*V(?:olts?)?` (voltage). -/
def suffixVoltage (s : List Char) : Option (List Char) :=
  (takeCI 'v' (s.dropWhile pyIsSpace)).map (optWordS ['o', 'l', 't'])

/-- Pattern tail `\s*(?:m|µ)?A(?:mps?)?` (current).  The optional `m`/`µ` prefix is tried
first and retracted if `A` does not follow, exactly as Python backtracks. -/
def suffixCurrent (s : List Char) : Option (List Char) :=
  let tryA := fun (s' : List Char) => (takeCI 'a' s').map (optWordS ['m', 'p'])
  match s.dropWhile pyIsSpace with
  | c :: rest =>
    if ciIs 'm' c || c = 'µ' then
      match tryA rest with
      | some r => some r
      | none => tryA (c :: rest)
    else tryA (c :: rest)
  | [] => none

/-- Pattern tail `\s*(?:k|M|G)?Hz` (frequency). -/
def suffixFrequency (s : List Char) : Option (List Char) :=
  let hz := fun (s' : List Char) => (takeCI 'h' s').bind (takeCI 'z')
  match s.dropWhile pyIsSpace with
  | c :: rest =>
    if ciIs 'k' c || ciIs 'm' c || ciIs 'g' c then
      match hz rest with
      | some r => some r
      | none => hz (c :: rest)
    else hz (c :: rest)
  | [] => none

/-- Pattern tail `\s*°?C` (temperature). -/
def suffixTemperature (s : List Char) : Option (List Char) :=
  match s.dropWhile pyIsSpace with
  | c :: rest =>
    if c = '°' then
      match takeCI 'c' rest with
      | some r => some r
      | none => takeCI 'c' (c :: rest)
    else takeCI 'c' (c :: rest)
  | [] => none

/-- Pattern tail `\s*(?:m|µ)?W(?:atts?)?` (power). -/
def suffixPower (s : List Char) : Option (List Char) :=
  let tryW := fun (s' : List Char) => (takeCI 'w' s').map (optWordS ['a', 't', 't'])
  match s.dropWhile pyIsSpace with
  | c :: rest =>
    if ciIs 'm' c || c = 'µ' then
      match tryW rest with
      | some r => some r
      | none => tryW (c :: rest)
    else tryW (c :: rest)
  | [] => none

/-- Pattern tail `\s*%\s*(?:efficiency|eff\.)` (efficiency); the alternation tries
`efficiency` first, then `eff.`. -/
def suffixEfficiency (s : List Char) : Option (List Char) :=
  match s.dropWhile pyIsSpace with
  | '%' :: rest =>
    let s2 := rest.dropWhile pyIsSpace
    match matchWordCI "efficiency".data s2 with
    | some r => some r
    | none => matchWordCI "eff.".data s2
  | _ => none

/-- Attempt to match one full specification pattern at the head of `s`:
the capture group followed by the category's unit suffix.  Returns the
captured substring and the rest of the subject after the whole match. -/
def matchSpec (neg : Bool) (suffix : List Char → Option (List Char)) (s : List Char) :
    Option (List Char × List Char) :=
  match parseNumber neg s with
  | none => none
  | some (cap, s1) =>
    match suffix s1 with
    | none => none
    | some rest => some (cap, rest)

/-- The scan of `re.findall`: try a match at every position, left to right;
on success emit the capture and resume after the matched text (matches do
not overlap), otherwise advance one character.  The fuel argument is the
length of the remaining subject; every iteration consumes at least one
subject character (a successful match consumes its non-empty capture), so
the fuel is never exhausted before the subject is. -/
def findAllAux (neg : Bool) (suffix : List Char → Option (List Char)) :
    ℕ → List Char → List (List Char)
  | 0, _ => []
  | _ + 1, [] => []
  | n + 1, c :: cs =>
    match matchSpec neg suffix (c :: cs) with
    | some (cap, rest) => cap :: findAllAux neg suffix n rest
    | none => findAllAux neg suffix n cs

/-- Function `re.findall(pattern, text, re.IGNORECASE)` restricted to the six
specification patterns: the list of captured groups, in order of occurrence. -/
def findAll (neg : Bool) (suffix : List Char → Option (List Char)) (text : List Char) :
    List (List Char) :=
  findAllAux neg suffix text.length text

/-- Dict `self.spec_patterns`, in dict insertion order: category name, whether the
capture allows a leading `-`, and the unit-suffix matcher. -/
def spec_patterns : List (String × Bool × (List Char → Option (List Char))) :=
  [("voltage", false, suffixVoltage),
   ("current", false, suffixCurrent),
   ("frequency", false, suffixFrequency),
   ("temperature", true, suffixTemperature),
   ("power", false, suffixPower),
   ("efficiency", false, suffixEfficiency)]

/-- Method `DatasheetParser._extract_specifications`: for each category, run
`findall`; keep the category only if there is at least one match, capped at
the first 5 matches (`matches[:5]`).  The Python dict (insertion-ordered)
becomes an association list. -/
def extract_specifications (text : List Char) : List (String × List (List Char)) :=
  spec_patterns.filterMap fun p =>
    let found := findAll p.2.1 p.2.2 text
    if found.isEmpty then none else some (p.1, found.take 5)

/-- The bullet glyphs of `_extract_features`
(`line.strip().startswith(('•', '-', '●', '◦'))`). -/
def isBulletChar (c : Char) : Bool := c = '•' || c = '-' || c = '●' || c = '◦'

/-- Python `str.strip()` (ASCII whitespace, see module conventions). -/
def pyStrip (s : List Char) : List Char :=
  ((s.dropWhile pyIsSpace).reverse.dropWhile pyIsSpace).reverse

/-- Python `str.split('\n')`: split at every newline, keeping empty pieces
(`"".split('\n') == [""]`). -/
def splitLines : List Char → List (List Char)
  | [] => [[]]
  | c :: cs =>
    if c = '\n' then [] :: splitLines cs
    else
      match splitLines cs with
      | l :: ls => (c :: l) :: ls
      | [] => [[c]]

/-- The loop body of `_extract_features` for one line: if the stripped line
starts with a bullet glyph, clean it with
`line.strip().lstrip('•-●◦ ').strip()` (which removes every leading
character from the set `{•, -, ●, ◦, space}`), and keep the result if its
length exceeds 10. -/
def featureOfLine (line : List Char) : Option (List Char) :=
  let s := pyStrip line
  match s with
  | c :: _ =>
    if isBulletChar c then
      let feature := pyStrip (s.dropWhile (fun ch => isBulletChar ch || ch = ' '))
      if 10 < feature.length then some feature else none
    else none
  | [] => none

/-- Method `DatasheetParser._extract_features`: qualifying lines in source order,
capped at the first 15 (`features[:15]`). -/
def extract_features (text : List Char) : List (List Char) :=
  ((splitLines text).filterMap featureOfLine).take 15

/-- List `app_keywords` of `_extract_applications`, verbatim — note the
mixed-case entries `"IoT"` and `"LED driver"`. -/
def app_keywords : List (List Char) :=
  ["automotive".data, "industrial".data, "consumer".data, "medical".data,
   "IoT".data, "wearable".data, "battery-powered".data, "wireless".data,
   "motor control".data, "power supply".data, "LED driver".data,
   "sensor interface".data]

/-- Python's substring containment `needle in hay`
(`"" in s` is true for every `s`). -/
def isSubstring (needle : List Char) : List Char → Bool
  | [] => needle.isEmpty
  | c :: cs => needle.isPrefixOf (c :: cs) || isSubstring needle cs

/-- Method `DatasheetParser._extract_applications`: lowercase the text
(`text.lower()`), then keep every keyword — as written, not lowercased —
that occurs as a substring of the lowered text, in vocabulary order. -/
def extract_applications (text : List Char) : List (List Char) :=
  let text_lower := text.map Char.toLower
  app_keywords.filter (fun keyword => isSubstring keyword text_lower)

/-- Cleaning rule as worded by the feature-extraction claim: from the trimmed
line, strip "the glyph and following whitespace" — i.e. the single leading
bullet glyph and the whitespace right after it — and keep the result if its
length exceeds 10.  (Written from the claim, for comparison with
`featureOfLine`; the code strips every leading glyph-or-space character.) -/
def featureOfLine_claim (line : List Char) : Option (List Char) :=
  match pyStrip line with
  | c :: rest =>
    if isBulletChar c then
      let feature := rest.dropWhile pyIsSpace
      if 10 < feature.length then some feature else none
    else none
  | [] => none

/-- Feature extraction as worded by the claim: the qualifying lines, cleaned
per `featureOfLine_claim`, first 15. -/
def extract_features_claim (text : List Char) : List (List Char) :=
  ((splitLines text).filterMap featureOfLine_claim).take 15

/-- Cleaning rule of the amended claim: strip every leading character drawn
from the bullet glyphs and the space, then trim surrounding whitespace. -/
def amendedClean (line : List Char) : List Char :=
  pyStrip ((pyStrip line).dropWhile (fun c => ['•', '-', '●', '◦', ' '].contains c))

/-- Qualification test of the amended claim: the line, after trimming,
starts with one of the four bullet glyphs. -/
def amendedQualifies (line : List Char) : Bool :=
  match pyStrip line with
  | c :: _ => ['•', '-', '●', '◦'].contains c
  | [] => false

/-- Feature extraction as worded by the amended claim: exactly the lines
that qualify and whose cleaned form is longer than 10 characters, mapped to
their cleaned forms, in source order, capped at the first 15. -/
def extract_features_amended (text : List Char) : List (List Char) :=
  (((splitLines text).filter
      (fun l => amendedQualifies l && decide (10 < (amendedClean l).length))).map
    amendedClean).take 15

/-- The captures of a scan appear in the subject in order of occurrence and
without overlap: `InOrderInfixes caps s` says `s` decomposes as
`pre₀ ++ caps₀ ++ pre₁ ++ caps₁ ++ … ++ tail`. -/
inductive InOrderInfixes : List (List Char) → List Char → Prop
  | nil (s : List Char) : InOrderInfixes [] s
  | cons (cap pre rest : List Char) (caps : List (List Char)) (s : List Char)
      (hs : s = pre ++ cap ++ rest) (htail : InOrderInfixes caps rest) :
      InOrderInfixes (cap :: caps) s

theorem roundHalfEven_intCast (z : ℤ) : roundHalfEven (z : ℚ) = z := by
  unfold roundHalfEven
  rw [Int.floor_intCast]
  norm_num

theorem floor_half : ⌊(1/2 : ℚ)⌋ = 0 := by
  rw [Int.floor_eq_iff]
  norm_num

theorem roundHalfEven_add_half (z : ℤ) :
    roundHalfEven ((z : ℚ) + 1/2) = if z % 2 = 0 then z else z + 1 := by
  have hfloor : ⌊((z : ℚ) + 1/2)⌋ = z := by
    rw [Int.floor_int_add, floor_half, add_zero]
  unfold roundHalfEven
  rw [hfloor]
  norm_num

theorem pyRound_of_mul_intCast {q : ℚ} {n : ℕ} {z : ℤ} (h : q * 10 ^ n = (z : ℚ)) :
    pyRound q n = (z : ℚ) / 10 ^ n := by
  unfold pyRound
  rw [h, roundHalfEven_intCast]

theorem pyRound_of_mul_half {q : ℚ} {n : ℕ} {z : ℤ} (h : q * 10 ^ n = (z : ℚ) + 1/2) :
    pyRound q n = ((if z % 2 = 0 then z else z + 1 : ℤ) : ℚ) / 10 ^ n := by
  unfold pyRound
  rw [h, roundHalfEven_add_half]

theorem pyRound_zero (n : ℕ) : pyRound 0 n = 0 := by
  rw [pyRound_of_mul_intCast (z := 0) (by norm_num)]
  norm_num

theorem pyRound_pyRound (q : ℚ) (n : ℕ) : pyRound (pyRound q n) n = pyRound q n := by
  unfold pyRound
  have h : ((roundHalfEven (q * 10 ^ n) : ℚ) / 10 ^ n) * 10 ^ n
      = ((roundHalfEven (q * 10 ^ n) : ℚ)) :=
    div_mul_cancel₀ _ (by positivity)
  rw [h, roundHalfEven_intCast]

theorem estimate_foldl (d : ℚ) (components : List Component) :
    ∀ acc : List LineEstimate × ℚ,
      components.foldl
        (fun acc c => (acc.1 ++ [bomLine d c], acc.2 + rawLineCost d c)) acc
      = (acc.1 ++ components.map (bomLine d),
         acc.2 + (components.map (rawLineCost d)).sum) := by
  induction components with
  | nil => intro acc; simp
  | cons c cs ih =>
    intro acc
    simp [List.foldl_cons, ih, add_assoc]

theorem estimate_components_eq (components : List Component) (volume : ℤ) (region : String) :
    (estimate_bom_cost components volume region).components
      = components.map (bomLine (get_volume_discount volume)) := by
  simp [estimate_bom_cost, estimate_foldl]

theorem estimate_total_eq (components : List Component) (volume : ℤ) (region : String) :
    (estimate_bom_cost components volume region).total_cost
      = pyRound ((components.map (rawLineCost (get_volume_discount volume))).sum) 2 := by
  have h0 : (0.0 : ℚ) = 0 := by norm_num
  simp [estimate_bom_cost, estimate_foldl, h0]

/-- C2: on the two-line BOM `A` (8.50 × 1) and `B` (3.20 × 2) at volume 1000
(discount factor 0.75), the per-line costs are 6.375 and 4.80 and the
rounded total is exactly 11.18. -/
theorem c2_two_line_bom :
    ((estimate_bom_cost
        [{ part_number := some "A", unit_price := some 8.50, quantity := some 1 },
         { part_number := some "B", unit_price := some 3.20, quantity := some 2 }]
        1000 "EU").components.map (fun l => l.line_cost) = [6.375, 4.80])
    ∧ (estimate_bom_cost
        [{ part_number := some "A", unit_price := some 8.50, quantity := some 1 },
         { part_number := some "B", unit_price := some 3.20, quantity := some 2 }]
        1000 "EU").total_cost = 11.18 := by
  have hd : get_volume_discount 1000 = 0.75 := by
    norm_num [get_volume_discount, lookupDiscount, volume_discounts_desc]
  have hA : pyRound ((8.50 : ℚ) * 0.75 * 1) 4 = 6.375 := by
    rw [pyRound_of_mul_intCast (z := 63750) (by norm_num)]
    norm_num
  have hB : pyRound ((3.20 : ℚ) * 0.75 * 2) 4 = 4.80 := by
    rw [pyRound_of_mul_intCast (z := 48000) (by norm_num)]
    norm_num
  constructor
  · rw [estimate_components_eq]
    simp only [List.map_cons, List.map_nil, bomLine, Option.getD_some, hd]
    rw [hA, hB]
  · rw [estimate_total_eq]
    simp only [List.map_cons, List.map_nil, rawLineCost, Option.getD_some, hd,
      List.sum_cons, List.sum_nil]
    rw [pyRound_of_mul_half (z := 1117) (by norm_num)]
    norm_num

/-- C3: every output line holds `discounted_price = unit_price * factor` and
`line_cost = discounted_price * quantity`, rounded to 4 decimals, and the
returned `total_cost` is the sum of the unrounded line costs rounded to 2
decimals. -/
theorem c3_per_line_and_total (components : List Component) (volume : ℤ) (region : String) :
    (estimate_bom_cost components volume region).components
      = components.map (fun c =>
          { part_number := c.part_number
            quantity := c.quantity.getD 1
            unit_price := pyRound (c.unit_price.getD 0.0) 4
            discounted_price := pyRound (c.unit_price.getD 0.0 * get_volume_discount volume) 4
            line_cost := pyRound (c.unit_price.getD 0.0 * get_volume_discount volume
              * c.quantity.getD 1) 4 })
    ∧ (estimate_bom_cost components volume region).total_cost
      = pyRound ((components.map (fun c =>
          c.unit_price.getD 0.0 * get_volume_discount volume * c.quantity.getD 1)).sum) 2 := by
  exact ⟨estimate_components_eq components volume region,
         estimate_total_eq components volume region⟩

/-- C4: the volume discount is a non-increasing step function with value 1.0
below 100, and takes the documented values at 50, 100, 1000, 10000, 100000. -/
theorem c4_volume_discount_monotone :
    (∀ v1 v2 : ℤ, v1 ≤ v2 → get_volume_discount v2 ≤ get_volume_discount v1)
    ∧ (∀ v : ℤ, v < 100 → get_volume_discount v = 1.0)
    ∧ (∀ v : ℤ, 100 ≤ v → v < 1000 → get_volume_discount v = 1.0)
    ∧ (∀ v : ℤ, 1000 ≤ v → v < 10000 → get_volume_discount v = 0.75)
    ∧ (∀ v : ℤ, 10000 ≤ v → v < 100000 → get_volume_discount v = 0.55)
    ∧ (∀ v : ℤ, 100000 ≤ v → get_volume_discount v = 0.40)
    ∧ get_volume_discount 50 = 1.0 ∧ get_volume_discount 100 = 1.0
    ∧ get_volume_discount 1000 = 0.75 ∧ get_volume_discount 10000 = 0.55
    ∧ get_volume_discount 100000 = 0.40 := by
  refine ⟨?_, ?_, ?_, ?_, ?_, ?_, ?_, ?_, ?_, ?_, ?_⟩
  · intro v1 v2 h
    simp only [get_volume_discount, lookupDiscount, volume_discounts_desc]
    split_ifs <;> first | omega | norm_num
  · intro v hv
    simp only [get_volume_discount, lookupDiscount, volume_discounts_desc]
    split_ifs <;> first | omega | rfl
  · intro v hv1 hv2
    simp only [get_volume_discount, lookupDiscount, volume_discounts_desc]
    split_ifs <;> first | omega | rfl
  · intro v hv1 hv2
    simp only [get_volume_discount, lookupDiscount, volume_discounts_desc]
    split_ifs <;> first | omega | rfl
  · intro v hv1 hv2
    simp only [get_volume_discount, lookupDiscount, volume_discounts_desc]
    split_ifs <;> first | omega | rfl
  · intro v hv
    simp only [get_volume_discount, lookupDiscount, volume_discounts_desc]
    split_ifs <;> first | omega | rfl
  · norm_num [get_volume_discount, lookupDiscount, volume_discounts_desc]
  · norm_num [get_volume_discount, lookupDiscount, volume_discounts_desc]
  · norm_num [get_volume_discount, lookupDiscount, volume_discounts_desc]
  · norm_num [get_volume_discount, lookupDiscount, volume_discounts_desc]
  · norm_num [get_volume_discount, lookupDiscount, volume_discounts_desc]

theorem c4_witness :
    get_volume_discount 1000 ≤ get_volume_discount 50
    ∧ get_volume_discount 50 = 1.0
    ∧ get_volume_discount 150 = 1.0
    ∧ get_volume_discount 1500 = 0.75
    ∧ get_volume_discount 15000 = 0.55
    ∧ get_volume_discount 150000 = 0.40 := by
  exact ⟨c4_volume_discount_monotone.1 50 1000 (by decide),
         c4_volume_discount_monotone.2.1 50 (by decide),
         c4_volume_discount_monotone.2.2.1 150 (by decide) (by decide),
         c4_volume_discount_monotone.2.2.2.1 1500 (by decide) (by decide),
         c4_volume_discount_monotone.2.2.2.2.1 15000 (by decide) (by decide),
         c4_volume_discount_monotone.2.2.2.2.2.1 150000 (by decide)⟩

/-- C7: `cost_per_unit` always equals `total_cost` (it is the already-rounded
total rounded again, and 2-decimal rounding is idempotent). -/
theorem c7_cost_per_unit_eq_total (components : List Component) (volume : ℤ) (region : String) :
    (estimate_bom_cost components volume region).cost_per_unit
      = (estimate_bom_cost components volume region).total_cost := by
  exact pyRound_pyRound _ 2

/-- C9: all embedded operations are total Lean functions; on the empty
string every extractor yields an empty container, and the empty BOM yields
total cost 0 with no lines. -/
theorem c9_empty_inputs :
    extract_specifications [] = []
    ∧ extract_features [] = []
    ∧ extract_applications [] = []
    ∧ (estimate_bom_cost [] 1000 "EU").components = []
    ∧ (estimate_bom_cost [] 1000 "EU").total_cost = 0
    ∧ (estimate_bom_cost [] 1000 "EU").cost_per_unit = 0 := by
  have h0 : (0.0 : ℚ) = 0 := by norm_num
  refine ⟨by decide, by decide, by decide, rfl, ?_, ?_⟩
  · show pyRound 0.0 2 = 0
    rw [h0, pyRound_zero]
  · show pyRound (pyRound 0.0 2) 2 = 0
    rw [h0, pyRound_zero, pyRound_zero]

/-- C10: a missing `unit_price` acts as 0.0 (the line contributes nothing to
the total), a missing `quantity` acts as 1 (the line contributes one unit's
discounted price), and a missing `part_number` is reported as `none` in the
output line. -/
theorem c10_missing_fields (volume : ℤ) (region : String) (pre post : List Component)
    (c : Component) :
    (c.unit_price = none →
      rawLineCost (get_volume_discount volume) c = 0
      ∧ (bomLine (get_volume_discount volume) c).line_cost = 0
      ∧ (estimate_bom_cost (pre ++ c :: post) volume region).total_cost
          = (estimate_bom_cost (pre ++ post) volume region).total_cost)
    ∧ (c.quantity = none →
      (bomLine (get_volume_discount volume) c).quantity = 1
      ∧ rawLineCost (get_volume_discount volume) c
          = c.unit_price.getD 0.0 * get_volume_discount volume)
    ∧ (c.part_number = none →
      (bomLine (get_volume_discount volume) c).part_number = none
      ∧ (estimate_bom_cost [c] volume region).components
          = [bomLine (get_volume_discount volume) c]) := by
  have h0 : (0.0 : ℚ) = 0 := by norm_num
  refine ⟨fun h => ⟨?_, ?_, ?_⟩, fun h => ⟨?_, ?_⟩, fun h => ⟨?_, ?_⟩⟩
  · simp [rawLineCost, h, h0]
  · have hz : c.unit_price.getD 0.0 * get_volume_discount volume * c.quantity.getD 1 = 0 := by
      simp [h, h0]
    simp only [bomLine, hz]
    exact pyRound_zero 4
  · rw [estimate_total_eq, estimate_total_eq]
    have hz : rawLineCost (get_volume_discount volume) c = 0 := by simp [rawLineCost, h, h0]
    simp [List.map_append, List.sum_append, hz]
  · simp [bomLine, h]
  · simp [rawLineCost, h]
  · simp [bomLine, h]
  · rw [estimate_components_eq]
    simp

theorem c10_witness :
    rawLineCost (get_volume_discount 1000) ⟨none, none, none⟩ = 0
    ∧ (bomLine (get_volume_discount 1000) ⟨none, none, none⟩).quantity = 1
    ∧ (bomLine (get_volume_discount 1000) ⟨none, none, none⟩).part_number = none := by
  have h := c10_missing_fields 1000 "EU" [] [] ⟨none, none, none⟩
  exact ⟨(h.1 rfl).1, (h.2.1 rfl).1, (h.2.2 rfl).1⟩


theorem dropWhile_sfx (p : Char → Bool) (l : List Char) : l.dropWhile p <:+ l :=
  ⟨l.takeWhile p, List.takeWhile_append_dropWhile p l⟩

theorem takeCI_sfx {a : Char} {s r : List Char} (h : takeCI a s = some r) : r <:+ s := by
  cases s with
  | nil => simp [takeCI] at h
  | cons c cs =>
    simp only [takeCI] at h
    split_ifs at h
    cases h
    exact ⟨[c], rfl⟩

theorem matchWordCI_sfx : ∀ {w s r : List Char}, matchWordCI w s = some r → r <:+ s := by
  intro w
  induction w with
  | nil =>
    intro s r h
    cases h
    exact List.suffix_refl _
  | cons a as ih =>
    intro s r h
    cases s with
    | nil => simp [matchWordCI] at h
    | cons c cs =>
      simp only [matchWordCI] at h
      split_ifs at h
      exact (ih h).trans (List.suffix_cons c cs)

theorem optWordS_sfx (w s : List Char) : optWordS w s <:+ s := by
  cases h1 : matchWordCI w s with
  | none =>
    simp only [optWordS, h1]
    exact List.suffix_refl s
  | some r =>
    cases h2 : takeCI 's' r with
    | none =>
      simp only [optWordS, h1, h2]
      exact matchWordCI_sfx h1
    | some r2 =>
      simp only [optWordS, h1, h2]
      exact (takeCI_sfx h2).trans (matchWordCI_sfx h1)

theorem mapOptWordS_sfx {a : Char} {w s r : List Char}
    (h : (takeCI a s).map (optWordS w) = some r) : r <:+ s := by
  cases h1 : takeCI a s with
  | none => rw [h1] at h; cases h
  | some r1 =>
    rw [h1] at h
    cases h
    exact (optWordS_sfx w r1).trans (takeCI_sfx h1)

theorem suffixVoltage_sfx {s r : List Char} (h : suffixVoltage s = some r) : r <:+ s := by
  simp only [suffixVoltage] at h
  exact (mapOptWordS_sfx h).trans (dropWhile_sfx pyIsSpace s)

theorem suffixCurrent_sfx {s r : List Char} (h : suffixCurrent s = some r) : r <:+ s := by
  simp only [suffixCurrent] at h
  split at h
  case h_2 => cases h
  case h_1 c rest heq =>
    have hcons : c :: rest <:+ s := heq ▸ dropWhile_sfx pyIsSpace s
    have hrest : rest <:+ s := (List.suffix_cons c rest).trans hcons
    split_ifs at h
    · cases h2 : (takeCI 'a' rest).map (optWordS ['m', 'p']) with
      | some r1 =>
        rw [h2] at h
        cases h
        exact (mapOptWordS_sfx h2).trans hrest
      | none =>
        rw [h2] at h
        exact (mapOptWordS_sfx h).trans hcons
    · exact (mapOptWordS_sfx h).trans hcons

theorem suffixFrequency_sfx {s r : List Char} (h : suffixFrequency s = some r) : r <:+ s := by
  have hz : ∀ {s' r' : List Char}, (takeCI 'h' s').bind (takeCI 'z') = some r' → r' <:+ s' := by
    intro s' r' h'
    cases h1 : takeCI 'h' s' with
    | none => rw [h1] at h'; cases h'
    | some r1 =>
      rw [h1] at h'
      exact (takeCI_sfx h').trans (takeCI_sfx h1)
  simp only [suffixFrequency] at h
  split at h
  case h_2 => cases h
  case h_1 c rest heq =>
    have hcons : c :: rest <:+ s := heq ▸ dropWhile_sfx pyIsSpace s
    have hrest : rest <:+ s := (List.suffix_cons c rest).trans hcons
    split_ifs at h
    · cases h2 : (takeCI 'h' rest).bind (takeCI 'z') with
      | some r1 =>
        rw [h2] at h
        cases h
        exact (hz h2).trans hrest
      | none =>
        rw [h2] at h
        exact (hz h).trans hcons
    · exact (hz h).trans hcons

theorem suffixTemperature_sfx {s r : List Char} (h : suffixTemperature s = some r) : r <:+ s := by
  simp only [suffixTemperature] at h
  split at h
  case h_2 => cases h
  case h_1 c rest heq =>
    have hcons : c :: rest <:+ s := heq ▸ dropWhile_sfx pyIsSpace s
    have hrest : rest <:+ s := (List.suffix_cons c rest).trans hcons
    split_ifs at h
    · cases h2 : takeCI 'c' rest with
      | some r1 =>
        rw [h2] at h
        cases h
        exact (takeCI_sfx h2).trans hrest
      | none =>
        rw [h2] at h
        exact (takeCI_sfx h).trans hcons
    · exact (takeCI_sfx h).trans hcons

theorem suffixPower_sfx {s r : List Char} (h : suffixPower s = some r) : r <:+ s := by
  simp only [suffixPower] at h
  split at h
  case h_2 => cases h
  case h_1 c rest heq =>
    have hcons : c :: rest <:+ s := heq ▸ dropWhile_sfx pyIsSpace s
    have hrest : rest <:+ s := (List.suffix_cons c rest).trans hcons
    split_ifs at h
    · cases h2 : (takeCI 'w' rest).map (optWordS ['a', 't', 't']) with
      | some r1 =>
        rw [h2] at h
        cases h
        exact (mapOptWordS_sfx h2).trans hrest
      | none =>
        rw [h2] at h
        exact (mapOptWordS_sfx h).trans hcons
    · exact (mapOptWordS_sfx h).trans hcons

theorem suffixEfficiency_sfx {s r : List Char} (h : suffixEfficiency s = some r) : r <:+ s := by
  simp only [suffixEfficiency] at h
  split at h
  case h_2 => cases h
  case h_1 rest heq =>
    have hcons : '%' :: rest <:+ s := heq ▸ dropWhile_sfx pyIsSpace s
    have hrest : rest.dropWhile pyIsSpace <:+ s :=
      ((dropWhile_sfx pyIsSpace rest).trans (List.suffix_cons '%' rest)).trans hcons
    cases h2 : matchWordCI "efficiency".data (rest.dropWhile pyIsSpace) with
    | some r1 =>
      rw [h2] at h
      cases h
      exact (matchWordCI_sfx h2).trans hrest
    | none =>
      rw [h2] at h
      exact (matchWordCI_sfx h).trans hrest

theorem parseDigits_decomp {s cap rest : List Char} (h : parseDigits s = some (cap, rest)) :
    s = cap ++ rest ∧ cap ≠ [] := by
  simp only [parseDigits] at h
  split_ifs at h with he
  have hds : s.takeWhile isDigitChar ≠ [] := by
    intro hnil
    rw [hnil] at he
    simp at he
  split at h
  · rename_i s2 heq
    cases h
    constructor
    · conv_lhs => rw [← List.takeWhile_append_dropWhile isDigitChar s]
      rw [heq]
      conv_lhs => rw [← List.takeWhile_append_dropWhile isDigitChar s2]
      simp
    · simp
  · cases h
    constructor
    · conv_lhs => rw [← List.takeWhile_append_dropWhile isDigitChar s]
    · exact hds

theorem parseNumber_decomp {neg : Bool} {s cap rest : List Char}
    (h : parseNumber neg s = some (cap, rest)) :
    s = cap ++ rest ∧ cap ≠ [] := by
  unfold parseNumber at h
  split at h
  case h_1 s1 =>
    cases h1 : parseDigits s1 with
    | none => rw [h1] at h; cases h
    | some p =>
      obtain ⟨c1, r1⟩ := p
      rw [h1] at h
      cases h
      obtain ⟨hs, -⟩ := parseDigits_decomp h1
      exact ⟨by rw [hs]; rfl, by simp⟩
  case h_2 =>
    exact parseDigits_decomp h

theorem matchSpec_decomp {neg : Bool} {suffix : List Char → Option (List Char)}
    {s cap rest : List Char}
    (hsuf : ∀ {s' r : List Char}, suffix s' = some r → r <:+ s')
    (h : matchSpec neg suffix s = some (cap, rest)) :
    (∃ mid, s = cap ++ mid ++ rest) ∧ cap ≠ [] ∧ rest.length < s.length := by
  unfold matchSpec at h
  split at h
  case h_1 => cases h
  case h_2 cap' s1 hp =>
    split at h
    case h_1 => cases h
    case h_2 rest' hsfx =>
      cases h
      obtain ⟨hs, hne⟩ := parseNumber_decomp hp
      obtain ⟨mid, hmid⟩ := hsuf hsfx
      have hlen : rest.length < s.length := by
        have h1 := congrArg List.length hs
        have h2 := congrArg List.length hmid
        simp only [List.length_append] at h1 h2
        have h3 : 0 < cap.length := List.length_pos.mpr hne
        omega
      exact ⟨⟨mid, by rw [hs, ← hmid]; simp [List.append_assoc]⟩, hne, hlen⟩

theorem inOrderInfixes_append (pre : List Char) {caps : List (List Char)} {t : List Char}
    (h : InOrderInfixes caps t) : InOrderInfixes caps (pre ++ t) := by
  cases h with
  | nil => exact .nil _
  | cons cap p r caps' t' hs ht =>
    exact .cons cap (pre ++ p) r caps' _ (by rw [hs]; simp [List.append_assoc]) ht

theorem findAllAux_inOrder {neg : Bool} {suffix : List Char → Option (List Char)}
    (hsuf : ∀ {s' r : List Char}, suffix s' = some r → r <:+ s') :
    ∀ (n : ℕ) (s : List Char), InOrderInfixes (findAllAux neg suffix n s) s := by
  intro n
  induction n with
  | zero =>
    intro s
    exact .nil s
  | succ n ih =>
    intro s
    cases s with
    | nil => exact .nil []
    | cons c cs =>
      rw [findAllAux]
      cases hm : matchSpec neg suffix (c :: cs) with
      | some p =>
        obtain ⟨cap, rest⟩ := p
        obtain ⟨⟨mid, hmid⟩, hne, hlen⟩ := matchSpec_decomp hsuf hm
        exact .cons cap [] (mid ++ rest) _ _ (by rw [hmid]; simp [List.append_assoc])
          (inOrderInfixes_append mid (ih rest))
      | none =>
        exact inOrderInfixes_append [c] (ih cs)

theorem inOrderInfixes_take (k : ℕ) {caps : List (List Char)} {s : List Char}
    (h : InOrderInfixes caps s) : InOrderInfixes (caps.take k) s := by
  induction h generalizing k with
  | nil =>
    simp only [List.take_nil]
    exact .nil _
  | cons cap pre rest caps' s' hs ht ih =>
    cases k with
    | zero => exact .nil _
    | succ k => exact .cons cap pre rest _ _ hs (ih k)

theorem c5_aux {neg : Bool} {suffix : List Char → Option (List Char)}
    (hsuf : ∀ {s' r : List Char}, suffix s' = some r → r <:+ s')
    {text : List Char} (hne : findAll neg suffix text ≠ []) :
    1 ≤ ((findAll neg suffix text).take 5).length
    ∧ ((findAll neg suffix text).take 5).length ≤ 5
    ∧ InOrderInfixes ((findAll neg suffix text).take 5) text := by
  refine ⟨?_, ?_, inOrderInfixes_take 5 (findAllAux_inOrder hsuf _ _)⟩
  · have := List.length_pos.mpr hne
    rw [List.length_take]
    omega
  · rw [List.length_take]
    omega

/-- C5: every category returned by `extract_specifications` has between 1
and 5 values, each value occurs verbatim in the input text, the values
appear in order of occurrence without overlap, and on
`"Operating Voltage: 3.3V to 5.5V"` the voltage entry is `["3.3", "5.5"]`. -/
theorem c5_specifications :
    (∀ (text : List Char) (entry : String × List (List Char)),
      entry ∈ extract_specifications text →
      1 ≤ entry.2.length ∧ entry.2.length ≤ 5 ∧ InOrderInfixes entry.2 text)
    ∧ extract_specifications "Operating Voltage: 3.3V to 5.5V".data
        = [("voltage", ["3.3".data, "5.5".data])] := by
  constructor
  · intro text entry hmem
    simp only [extract_specifications, List.mem_filterMap] at hmem
    obtain ⟨p, hp, hfp⟩ := hmem
    split_ifs at hfp with hemp
    · cases hfp
      have hne : findAll p.2.1 p.2.2 text ≠ [] := by
        intro h0
        rw [h0] at hemp
        simp at hemp
      have hsuf : ∀ {s' r : List Char}, p.2.2 s' = some r → r <:+ s' := by
        simp only [spec_patterns, List.mem_cons, List.not_mem_nil, or_false] at hp
        rcases hp with rfl | rfl | rfl | rfl | rfl | rfl
        · exact fun h => suffixVoltage_sfx h
        · exact fun h => suffixCurrent_sfx h
        · exact fun h => suffixFrequency_sfx h
        · exact fun h => suffixTemperature_sfx h
        · exact fun h => suffixPower_sfx h
        · exact fun h => suffixEfficiency_sfx h
      exact c5_aux hsuf hne
  · decide

theorem c5_witness :
    1 ≤ (["3.3".data, "5.5".data] : List (List Char)).length
    ∧ (["3.3".data, "5.5".data] : List (List Char)).length ≤ 5
    ∧ InOrderInfixes ["3.3".data, "5.5".data] "Operating Voltage: 3.3V to 5.5V".data := by
  exact c5_specifications.1 "Operating Voltage: 3.3V to 5.5V".data
    ("voltage", ["3.3".data, "5.5".data]) (by decide)

theorem mem_bulletSpace (ch : Char) :
    (isBulletChar ch || ch = ' ') = ['•', '-', '●', '◦', ' '].contains ch := by
  simp [isBulletChar, List.contains_cons, Bool.or_assoc]

theorem mem_bullet (ch : Char) :
    isBulletChar ch = ['•', '-', '●', '◦'].contains ch := by
  simp [isBulletChar, List.contains_cons, Bool.or_assoc]

theorem filterMap_eq_filter_map {α β : Type} (f : α → Option β) (q : α → Bool) (g : α → β)
    (hf : ∀ a, f a = if q a then some (g a) else none) :
    ∀ l : List α, l.filterMap f = (l.filter q).map g := by
  intro l
  induction l with
  | nil => simp
  | cons a t ih =>
    rw [List.filterMap_cons, List.filter_cons, hf a]
    cases hq : q a
    · simp [ih]
    · simp [ih]

theorem featureOfLine_amended_eq (line : List Char) :
    featureOfLine line
      = if amendedQualifies line && decide (10 < (amendedClean line).length)
        then some (amendedClean line) else none := by
  have hset : (fun ch => isBulletChar ch || ch = ' ')
      = (fun ch => ['•', '-', '●', '◦', ' '].contains ch) := funext mem_bulletSpace
  unfold featureOfLine amendedQualifies amendedClean
  cases hls : pyStrip line with
  | nil => simp
  | cons c rest =>
    simp only [← hset, ← mem_bullet]
    cases hb : isBulletChar c
    · simp [hb]
    · cases hl : decide (10 < (pyStrip ((c :: rest).dropWhile
          (fun ch => isBulletChar ch || ch = ' '))).length)
      · simp_all
      · simp_all

/-- C6 (amended): `_extract_features` returns, in source order and capped at
the first 15, exactly the lines that after trimming start with a bullet
glyph, with every leading bullet-glyph or space character stripped and
surrounding whitespace trimmed, kept only when the cleaned line is longer
than 10 characters; `"• Low power consumption"` yields
`"Low power consumption"` while `"• ok"` is excluded. -/
theorem c6_features_amended :
    (∀ text : List Char, extract_features text = extract_features_amended text)
    ∧ extract_features "• Low power consumption\n• ok".data
        = ["Low power consumption".data] := by
  constructor
  · intro text
    unfold extract_features extract_features_amended
    rw [filterMap_eq_filter_map featureOfLine
      (fun l => amendedQualifies l && decide (10 < (amendedClean l).length))
      amendedClean featureOfLine_amended_eq (splitLines text)]
  · decide

/-- On the line `"•- Low power consumption"` the code strips both leading
glyphs and yields `"Low power consumption"`, while stripping only the first
glyph and following whitespace (the claim's wording) would yield
`"- Low power consumption"`: the claim as stated fails on this input. -/
theorem c6_counterexample :
    extract_features "•- Low power consumption".data = ["Low power consumption".data]
    ∧ extract_features_claim "•- Low power consumption".data
        = ["- Low power consumption".data]
    ∧ decide (extract_features "•- Low power consumption".data
        = extract_features_claim "•- Low power consumption".data) = false := by
  decide

theorem isSubstring_subset : ∀ {needle hay : List Char}, isSubstring needle hay = true →
    ∀ c ∈ needle, c ∈ hay := by
  intro needle hay
  induction hay with
  | nil =>
    intro h c hc
    simp only [isSubstring, List.isEmpty_iff] at h
    subst h
    cases hc
  | cons b bs ih =>
    intro h c hc
    simp only [isSubstring, Bool.or_eq_true] at h
    rcases h with h | h
    · have hp := h
      rw [ List.isPrefixOf_iff_prefix] at hp
      obtain ⟨t, ht⟩ := hp
      exact ht ▸ List.mem_append_left t hc
    · exact List.mem_cons_of_mem b (ih h c hc)

theorem toLower_ne_upper_I (c : Char) : Char.toLower c ≠ 'I' := by
  intro h
  simp only [Char.toLower] at h
  split_ifs at h with hcond
  · have hvalid : (c.toNat + 32).isValidChar := Or.inl (by omega)
    rw [Char.ofNat, dif_pos hvalid] at h
    have h2 := congrArg Char.toNat h
    have h3 : (Char.ofNatAux (c.toNat + 32) hvalid).toNat = c.toNat + 32 := rfl
    have h4 : ('I').toNat = 73 := rfl
    rw [h3, h4] at h2
    omega
  · subst h
    simp only [Char.toNat] at hcond
    exact absurd hcond (by decide)

/-- C1 (code bug): `_extract_applications` lowercases only the text, never
the keywords, so the mixed-case vocabulary entries `"IoT"` and
`"LED driver"` can never be extracted — `"IoT"` occurs in no output for any
input — even though they occur case-insensitively (here verbatim) in the
text, contradicting the specified case-insensitive matching. -/
theorem c1_keyword_case_bug :
    (∀ text : List Char, (extract_applications text).count ("IoT".data) = 0)
    ∧ extract_applications "For IoT and LED driver applications".data = []
    ∧ "IoT".data ∈ app_keywords
    ∧ "LED driver".data ∈ app_keywords
    ∧ isSubstring ("IoT".data.map Char.toLower)
        ("For IoT and LED driver applications".data.map Char.toLower) = true
    ∧ isSubstring ("LED driver".data.map Char.toLower)
        ("For IoT and LED driver applications".data.map Char.toLower) = true := by
  refine ⟨?_, ?_, ?_, ?_, ?_, ?_⟩
  · intro text
    rw [List.count_eq_zero]
    intro hmem
    simp only [extract_applications, List.mem_filter] at hmem
    have hsub := hmem.2
    have hI : 'I' ∈ text.map Char.toLower :=
      isSubstring_subset hsub 'I' (by decide)
    obtain ⟨c, -, hc⟩ := List.mem_map.mp hI
    exact toLower_ne_upper_I c hc
  · decide
  · decide
  · decide
  · decide
  · decide

theorem getLastD_mem : ∀ (l : List Comparison) (d : Comparison), l ≠ [] → l.getLastD d ∈ l := by
  intro l
  induction l with
  | nil => intro d h; exact absurd rfl h
  | cons a t ih =>
    intro d h
    cases t with
    | nil => simp [List.getLastD]
    | cons b t' =>
      rw [List.getLastD_cons]
      exact List.mem_cons_of_mem a (ih a (by simp))

theorem getLastD_irrel : ∀ (l : List Comparison) (d d' : Comparison), l ≠ [] →
    l.getLastD d = l.getLastD d' := by
  intro l d d' h
  cases l with
  | nil => exact absurd rfl h
  | cons a t => rw [List.getLastD_cons, List.getLastD_cons]

theorem sorted_headD_le (l : List Comparison)
    (hl : l.Pairwise (fun a b => a.total_cost ≤ b.total_cost)) :
    ∀ x ∈ l, (l.headD noComparison).total_cost ≤ x.total_cost := by
  cases l with
  | nil => intro x hx; cases hx
  | cons a t =>
    intro x hx
    rw [List.headD_cons]
    rcases List.mem_cons.mp hx with rfl | hx'
    · exact le_refl _
    · exact List.rel_of_pairwise_cons hl hx'

theorem sorted_le_getLastD : ∀ (l : List Comparison),
    l.Pairwise (fun a b => a.total_cost ≤ b.total_cost) →
    ∀ x ∈ l, x.total_cost ≤ (l.getLastD noComparison).total_cost := by
  intro l
  induction l with
  | nil => intro _ x hx; cases hx
  | cons a t ih =>
    intro hl x hx
    cases t with
    | nil =>
      rcases List.mem_cons.mp hx with rfl | hx'
      · simp [List.getLastD]
      · cases hx'
    | cons b t' =>
      rw [List.getLastD_cons]
      have hlast_mem : (b :: t').getLastD a ∈ b :: t' := getLastD_mem (b :: t') a (by simp)
      rcases List.mem_cons.mp hx with rfl | hx'
      · exact List.rel_of_pairwise_cons hl hlast_mem
      · have hlt : x.total_cost ≤ ((b :: t').getLastD noComparison).total_cost :=
          ih (List.Pairwise.of_cons hl) x hx'
        rwa [getLastD_irrel (b :: t') noComparison a (by simp)] at hlt

/-- C8: `compare_alternatives` returns the entries sorted ascending by
`total_cost` (a permutation of the computed per-alternative entries),
`best_option` is the head of the sorted list (none when the input is
empty), every entry lies between the first (cheapest) and last (most
expensive) entry, and `savings` is last minus first rounded to 2 decimals,
or 0 when fewer than 2 alternatives are given. -/
theorem c8_compare_alternatives (alts : List (List Component)) (volume : ℤ) :
    (compare_alternatives alts volume).alternatives.Pairwise
        (fun a b => a.total_cost ≤ b.total_cost)
    ∧ List.Perm (compare_alternatives alts volume).alternatives
        (alts.enum.map (fun p => mkComparison volume p.1 p.2))
    ∧ (compare_alternatives alts volume).best_option
        = (compare_alternatives alts volume).alternatives.head?
    ∧ (alts = [] → (compare_alternatives alts volume).best_option = none)
    ∧ (∀ x ∈ (compare_alternatives alts volume).alternatives,
        ((compare_alternatives alts volume).alternatives.headD noComparison).total_cost
            ≤ x.total_cost
        ∧ x.total_cost ≤
            ((compare_alternatives alts volume).alternatives.getLastD noComparison).total_cost)
    ∧ (1 < alts.length → (compare_alternatives alts volume).savings
        = pyRound
            (((compare_alternatives alts volume).alternatives.getLastD noComparison).total_cost
             - ((compare_alternatives alts volume).alternatives.headD noComparison).total_cost) 2)
    ∧ (alts.length ≤ 1 → (compare_alternatives alts volume).savings = 0) := by
  set L := alts.enum.map (fun p => mkComparison volume p.1 p.2) with hL
  set S := L.mergeSort (fun a b => decide (a.total_cost ≤ b.total_cost)) with hS
  have halt : (compare_alternatives alts volume).alternatives = S := rfl
  have hbest : (compare_alternatives alts volume).best_option = S.head? := rfl
  have hsav : (compare_alternatives alts volume).savings
      = if 1 < S.length then
          pyRound ((S.getLastD noComparison).total_cost - (S.headD noComparison).total_cost) 2
        else 0 := rfl
  have hlen : S.length = alts.length := by
    rw [hS, List.length_mergeSort, hL, List.length_map, List.enum_length]
  have htr : ∀ (a b c : Comparison), decide (a.total_cost ≤ b.total_cost) = true →
      decide (b.total_cost ≤ c.total_cost) = true →
      decide (a.total_cost ≤ c.total_cost) = true := by
    intro a b c hab hbc
    simp only [decide_eq_true_eq] at *
    exact le_trans hab hbc
  have hto : ∀ (a b : Comparison),
      (decide (a.total_cost ≤ b.total_cost) || decide (b.total_cost ≤ a.total_cost)) = true := by
    intro a b
    simp only [Bool.or_eq_true, decide_eq_true_eq]
    exact le_total _ _
  have hsorted : S.Pairwise (fun a b => a.total_cost ≤ b.total_cost) := by
    have h0 := List.sorted_mergeSort htr hto L
    rw [← hS] at h0
    exact h0.imp (fun hab => of_decide_eq_true hab)
  refine ⟨?_, ?_, ?_, ?_, ?_, ?_, ?_⟩
  · rw [halt]; exact hsorted
  · rw [halt, hS]; exact List.mergeSort_perm L _
  · rw [hbest, halt]
  · intro h0
    subst h0
    simp [compare_alternatives]
  · intro x hx
    rw [halt] at hx ⊢
    exact ⟨sorted_headD_le S hsorted x hx, sorted_le_getLastD S hsorted x hx⟩
  · intro hlt
    rw [hsav, halt, if_pos (by omega : 1 < S.length)]
  · intro hle
    rw [hsav, if_neg (by omega : ¬ 1 < S.length)]

theorem c8_witness :
    ((compare_alternatives
        [[{ part_number := some "A", unit_price := some 1, quantity := some 1 }],
         [{ part_number := some "B", unit_price := some 2, quantity := some 1 }]] 1000).savings
      = pyRound
          (((compare_alternatives
              [[{ part_number := some "A", unit_price := some 1, quantity := some 1 }],
               [{ part_number := some "B", unit_price := some 2, quantity := some 1 }]]
              1000).alternatives.getLastD noComparison).total_cost
           - ((compare_alternatives
              [[{ part_number := some "A", unit_price := some 1, quantity := some 1 }],
               [{ part_number := some "B", unit_price := some 2, quantity := some 1 }]]
              1000).alternatives.headD noComparison).total_cost) 2)
    ∧ ((compare_alternatives
          [[{ part_number := some "A", unit_price := some 1, quantity := some 1 }],
           [{ part_number := some "B", unit_price := some 2, quantity := some 1 }]]
          1000).alternatives.headD noComparison).total_cost
        ≤ (mkComparison 1000 0
            [{ part_number := some "A", unit_price := some 1, quantity := some 1 }]).total_cost := by
  have h := c8_compare_alternatives
    [[{ part_number := some "A", unit_price := some 1, quantity := some 1 }],
     [{ part_number := some "B", unit_price := some 2, quantity := some 1 }]] 1000
  have hmem : mkComparison 1000 0
      [{ part_number := some "A", unit_price := some 1, quantity := some 1 }]
      ∈ (compare_alternatives
          [[{ part_number := some "A", unit_price := some 1, quantity := some 1 }],
           [{ part_number := some "B", unit_price := some 2, quantity := some 1 }]]
          1000).alternatives := by
    apply h.2.1.mem_iff.mpr
    exact List.mem_cons_self _ _
  exact ⟨h.2.2.2.2.2.1 (by decide), (h.2.2.2.2.1 _ hmem).1⟩
